import Mathlib

/-!
Verification of the k0s `pkg/cleanup/directories.go` teardown step.

The Go source is shallowly embedded as follows:

* The Unix behaviour of Go's `path/filepath` helpers (`Clean`, `Rel`, `Join`,
  `Dir`, `IsAbs`) and `strings.HasPrefix` is modelled over `List Char`
  (Go paths are byte strings; the paths here are treated character-wise,
  which coincides with Go on the ASCII paths in question).
* Go `error` values are modelled by the inductive `GoError`, with
  `os.PathError` as a constructor carrying `Op`, `Path` and a wrapped error,
  `fmt.Errorf("...: %w", err)` as a wrapping constructor, and plain
  `errors.New` / `fmt.Errorf` without `%w` as a leaf.  `errors.As` with an
  `*os.PathError` target is `asPathError` (it unwraps until the first
  `pathError` is found).
* The effectful environment of `(*directories).Run` — the mounter's `List`
  and `Unmount`, `UnmountLazy`, and `os.RemoveAll` — is a `World` record of
  oracles, and `Run` returns its Go result together with the ordered trace
  of the calls it performed (`Event` list), so that statements about side
  effects and their order can be made.
-/

namespace Cleanup

/-! ### Go `path/filepath` on Unix, over `List Char` -/

/-- Split a character sequence at `'/'` separators, dropping empty
components (the accumulator holds the current component, reversed).
This mirrors the element scanning loop of Go `filepath.Clean`. -/
def splitPathAux : List Char → List Char → List (List Char)
  | [], acc => if acc = [] then [] else [acc.reverse]
  | c :: rest, acc =>
    if c = '/' then
      if acc = [] then splitPathAux rest []
      else acc.reverse :: splitPathAux rest []
    else splitPathAux rest (c :: acc)

/-- The nonempty `'/'`-separated components of a path. -/
def splitPath (cs : List Char) : List (List Char) :=
  splitPathAux cs []

/-- One step of Go `filepath.Clean`'s element processing: `"."` is dropped,
`".."` pops the last element when one is poppable, is dropped at the root
of a rooted path, and is kept on a relative path that cannot backtrack;
any other element is appended. -/
def cleanStep (rooted : Bool) (stack : List (List Char)) (comp : List Char) :
    List (List Char) :=
  if comp = ['.'] then stack
  else if comp = ['.', '.'] then
    if stack ≠ [] ∧ stack.getLast? ≠ some ['.', '.'] then stack.dropLast
    else if rooted then stack
    else stack ++ [['.', '.']]
  else stack ++ [comp]

/-- Join components with `'/'` separators. -/
def joinComps : List (List Char) → List Char
  | [] => []
  | [c] => c
  | c :: rest => c ++ '/' :: joinComps rest

/-- Go `filepath.Clean` on Unix (no volume names, separator `'/'`). -/
def cleanChars (cs : List Char) : List Char :=
  if cs = [] then ['.']
  else
    let rooted := cs.head? == some '/'
    let stack := (splitPath cs).foldl (cleanStep rooted) []
    if rooted then '/' :: joinComps stack
    else if stack = [] then ['.']
    else joinComps stack

/-- Go `filepath.Clean` at the `String` interface. -/
def clean (s : String) : String :=
  (cleanChars s.toList).asString

/-- Drop the longest common prefix of two component lists, returning the
two remainders.  This mirrors the element comparison loop of Go
`filepath.Rel`. -/
def stripCommon : List (List Char) → List (List Char) →
    List (List Char) × List (List Char)
  | b :: bs, t :: ts => if b = t then stripCommon bs ts else (b :: bs, t :: ts)
  | bs, ts => (bs, ts)

/-- Go `filepath.Rel(base, targ)` on Unix: clean both paths; equal cleans
give `"."`; a rootedness mismatch or a leading `".."` left in the base
after removing the common prefix is an error (`none`); otherwise the
result climbs with one `".."` per remaining base element and then descends
along the remaining target elements. -/
def goRelChars (basec targc : List Char) : Option (List Char) :=
  let b := cleanChars basec
  let t := cleanChars targc
  if t = b then some ['.']
  else
    let b2 := if b = ['.'] then [] else b
    if (b2.head? == some '/') != (t.head? == some '/') then none
    else
      let p := stripCommon (splitPath b2) (splitPath t)
      if p.1.head? = some ['.', '.'] then none
      else some (joinComps (List.replicate p.1.length ['.', '.'] ++ p.2))

/-- Go `filepath.Rel` at the `String` interface (`none` models a non-nil
error return). -/
def goRel (base targ : String) : Option String :=
  (goRelChars base.toList targ.toList).map List.asString

/-- Go `filepath.Join` for two elements: empty elements are skipped and
the concatenation is cleaned; `Join("", "")` is `""`. -/
def filepathJoin (a b : String) : String :=
  if a = "" then (if b = "" then "" else clean b)
  else clean (a ++ "/" ++ b)

/-- Go `filepath.Dir` on Unix: everything up to and including the final
`'/'` (empty when there is none), cleaned. -/
def dirChars (cs : List Char) : List Char :=
  cleanChars ((cs.reverse.dropWhile (fun c => c != '/')).reverse)

/-- Go `filepath.Dir` at the `String` interface. -/
def dir (s : String) : String :=
  (dirChars s.toList).asString

/-- `isUnderPath` from `pkg/cleanup/directories.go`:

    rel, err := filepath.Rel(base, path)
    return err == nil && !strings.HasPrefix(rel, "..") && !filepath.IsAbs(rel)
-/
def isUnderPath (path base : String) : Bool :=
  match goRelChars base.toList path.toList with
  | none => false
  | some r => !(List.isPrefixOf ['.', '.'] r) && !(r.head? == some '/')

/-- A component of a cleaned path: nonempty, slash-free, and neither of
the special elements `"."` and `".."`. -/
def ValidComp (c : List Char) : Prop :=
  c ≠ [] ∧ '/' ∉ c ∧ c ≠ ['.'] ∧ c ≠ ['.', '.']

instance : DecidablePred ValidComp := fun c => by
  unfold ValidComp
  infer_instance

/-- The absolute path with the given components. -/
def absPath (comps : List (List Char)) : String :=
  List.asString ('/' :: joinComps comps)

/-! ### Go errors, `os.PathError` and `errors.As` -/

/-- A Go `error` value as relevant to this package: an `*os.PathError`
(`Op`, `Path`, wrapped `Err`), an error produced by
`fmt.Errorf("...: %w", err)`, or an opaque leaf error. -/
inductive GoError where
  | pathError (op path : String) (err : GoError)
  | errorf (msg : String) (err : GoError)
  | simple (msg : String)
deriving DecidableEq

/-- `errors.As(err, &pathErr)` for an `*os.PathError` target: walk the
`Unwrap` chain and return the `(Op, Path)` of the first `os.PathError`
found, if any. -/
def asPathError : GoError → Option (String × String)
  | .pathError op path _ => some (op, path)
  | .errorf _ inner => asPathError inner
  | .simple _ => none

/-- `errorIsUnlinkat` from `pkg/cleanup/directories.go`: a nil error is not
an unlinkat error; otherwise find a `*os.PathError` via `errors.As` and
require `pathErr.Path == dir && pathErr.Op == "unlinkat"`. -/
def errorIsUnlinkat (err : Option GoError) (dirArg : String) : Bool :=
  match err with
  | none => false
  | some e =>
    match asPathError e with
    | none => false
    | some pe => pe.2 == dirArg && pe.1 == "unlinkat"

/-! ### The data model of the step -/

/-- One record of the mounter's `List()` output (`mount.MountPoint`); only
the `Path` field is consumed by this step. -/
structure MountPoint where
  path : String
deriving DecidableEq

/-- The configuration consumed by the step: `Config.dataDir`,
`Config.runDir` and `Config.k0sVars.DataDir` (kept as the separate field
`k0sVarsDataDir`, exactly as the source reads two distinct fields). -/
structure Config where
  dataDir : String
  runDir : String
  k0sVarsDataDir : String

/-- The oracles for the effectful calls `Run` performs: the result of
`mounter.List()`, whether `mounter.Unmount(p)` succeeds, whether
`UnmountLazy(p)` succeeds, and the error (if any) of `os.RemoveAll(p)`. -/
structure World where
  listResult : Except GoError (List MountPoint)
  unmountOk : String → Bool
  lazyUnmountOk : String → Bool
  removeAllResult : String → Option GoError

/-- One effectful call performed by `Run`, in the order performed. -/
inductive Event where
  | unmount (path : String)
  | unmountLazy (path : String)
  | removeAll (path : String)
deriving DecidableEq

/-- The unmount condition of the loop body:
`isUnderPath(v.Path, filepath.Join(d.Config.dataDir, "kubelet")) ||
isUnderPath(v.Path, d.Config.k0sVars.DataDir)`. -/
def ownedMount (cfg : Config) (p : String) : Bool :=
  isUnderPath p (filepathJoin cfg.dataDir "kubelet") ||
    isUnderPath p cfg.k0sVarsDataDir

/-- The loop of `Run` (lines 64–84) over the already-reversed mount list,
threading the `dataDirMounted` flag and emitting the trace of unmount
calls.  A record whose path equals `k0sVars.DataDir` only sets the flag;
an owned record is unmounted, falling back to a lazy unmount, and a
failure of both aborts with `fmt.Errorf("failed unmount %v", v.Path)`. -/
def runMounts (cfg : Config) (w : World) :
    List MountPoint → Bool → Except GoError Bool × List Event
  | [], m => (.ok m, [])
  | v :: rest, m =>
    if v.path = cfg.k0sVarsDataDir then
      runMounts cfg w rest true
    else if ownedMount cfg v.path then
      if w.unmountOk v.path then
        let r := runMounts cfg w rest m
        (r.1, .unmount v.path :: r.2)
      else if w.lazyUnmountOk v.path then
        let r := runMounts cfg w rest m
        (r.1, .unmount v.path :: .unmountLazy v.path :: r.2)
      else
        (.error (.simple ("failed unmount " ++ v.path)),
          [.unmount v.path, .unmountLazy v.path])
    else runMounts cfg w rest m

/-- Lines 101–106 of `Run`: `os.RemoveAll(d.Config.runDir)`, with any
failure wrapped as `fmt.Errorf("failed to delete %s: %w", ...)`. -/
def eraseRunDir (cfg : Config) (w : World) : Option GoError × List Event :=
  match w.removeAllResult cfg.runDir with
  | some err =>
    (some (.errorf ("failed to delete " ++ cfg.runDir) err),
      [.removeAll cfg.runDir])
  | none => (none, [.removeAll cfg.runDir])

/-- Lines 92–106 of `Run`: `os.RemoveAll(d.Config.dataDir)` — whose
failure is fatal unless `dataDirMounted` holds and `errorIsUnlinkat`
accepts it — followed by the run-dir deletion. -/
def eraseDirs (cfg : Config) (w : World) (dataDirMounted : Bool) :
    Option GoError × List Event :=
  match w.removeAllResult cfg.dataDir with
  | some err =>
    if !dataDirMounted then
      (some (.errorf "failed to delete k0s generated data-dir" err),
        [.removeAll cfg.dataDir])
    else if !errorIsUnlinkat (some err) cfg.dataDir then
      (some (.errorf "failed to delete contents of mounted data-dir" err),
        [.removeAll cfg.dataDir])
    else
      let r := eraseRunDir cfg w
      (r.1, .removeAll cfg.dataDir :: r.2)
  | none =>
    let r := eraseRunDir cfg w
    (r.1, .removeAll cfg.dataDir :: r.2)

/-- `(*directories).Run`: list the mounts (propagating a listing error),
traverse the list in reverse unmounting owned records, then erase the
data and run directories.  Returned are the Go `error` result (`none` is
nil) and the ordered trace of effectful calls. -/
def Run (cfg : Config) (w : World) : Option GoError × List Event :=
  match w.listResult with
  | .error e => (some e, [])
  | .ok procMounts =>
    let r := runMounts cfg w procMounts.reverse false
    match r.1 with
    | .error e => (some e, r.2)
    | .ok m =>
      let r2 := eraseDirs cfg w m
      (r2.1, r.2 ++ r2.2)

/-- Modelled from the spec: the §4.2 ownership classifier over the spec's
`TeardownTarget`, which carries the kubelet subdirectory as a field of its
own, independent of the data directory. -/
def specOwned (kubeletSubdir dataDirRoot p : String) : Bool :=
  isUnderPath p kubeletSubdir || isUnderPath p dataDirRoot

/-- The sequence of unmount events the loop of `Run` emits over a given
(already reversed) mount list: this is the `.2` component of `runMounts`,
which does not depend on the incoming flag (proved below as
`runMounts_events_eq`). -/
def evList (cfg : Config) (w : World) : List MountPoint → List Event
  | [] => []
  | v :: rest =>
    if v.path = cfg.k0sVarsDataDir then evList cfg w rest
    else if ownedMount cfg v.path then
      if w.unmountOk v.path then .unmount v.path :: evList cfg w rest
      else if w.lazyUnmountOk v.path then
        .unmount v.path :: .unmountLazy v.path :: evList cfg w rest
      else [.unmount v.path, .unmountLazy v.path]
    else evList cfg w rest

/-! ### Concrete scenarios used as witnesses -/

/-- A concrete configuration: data dir `/data` (both fields) and run dir
`/run/k0s`. -/
def cfgA : Config := ⟨"/data", "/run/k0s", "/data"⟩

/-- A concrete tolerated deletion failure: `unlinkat` on `/data`. -/
def errU : GoError := .pathError "unlinkat" "/data" (.simple "device or resource busy")

/-- One owned kubelet mount whose unmount and lazy unmount both fail. -/
def w1 : World :=
  ⟨.ok [⟨"/data/kubelet"⟩], fun _ => false, fun _ => false, fun _ => none⟩

/-- No mounts; deleting `/data` fails with the tolerated unlinkat error. -/
def w2 : World :=
  ⟨.ok [], fun _ => true, fun _ => true,
    fun p => if p = "/data" then some errU else none⟩

/-- A data-dir root mount plus an unrelated mount; all operations
succeed. -/
def w4 : World :=
  ⟨.ok [⟨"/data"⟩, ⟨"/somewhere"⟩], fun _ => true, fun _ => true,
    fun _ => none⟩

/-- The spec's nested example: the data-dir root and two nested kubelet
mounts, everything succeeding. -/
def w3 : World :=
  ⟨.ok [⟨"/data"⟩, ⟨"/data/kubelet"⟩, ⟨"/data/kubelet/pods/x"⟩],
    fun _ => true, fun _ => true, fun _ => none⟩

/-- No mounts; all unmounts succeed. -/
def w6 : World := ⟨.ok [], fun _ => true, fun _ => true, fun _ => none⟩

/-- No mounts; deleting the run dir fails. -/
def w7 : World :=
  ⟨.ok [], fun _ => true, fun _ => true,
    fun p => if p = "/run/k0s" then some (.simple "permission denied") else none⟩

/-- One unrelated mount; every deletion is a no-op. -/
def w8 : World := ⟨.ok [⟨"/elsewhere"⟩], fun _ => true, fun _ => true, fun _ => none⟩

/-! ### Lemmas about the Go path helpers -/

theorem splitPathAux_no_slash (c : List Char) :
    ∀ (acc : List Char), '/' ∉ c →
      splitPathAux c acc = splitPathAux [] (c.reverse ++ acc) := by
  induction c with
  | nil => intro acc _; rfl
  | cons ch c ih =>
    intro acc hc
    have hch : ch ≠ '/' := fun h => hc (h ▸ List.mem_cons_self _ _)
    have hstep : splitPathAux (ch :: c) acc = splitPathAux c (ch :: acc) := by
      rw [splitPathAux, if_neg hch]
    rw [hstep, ih (ch :: acc) (fun h => hc (List.mem_cons_of_mem _ h))]
    congr 1
    simp

theorem splitPathAux_comp_slash (c : List Char) :
    ∀ (rest acc : List Char), '/' ∉ c →
      splitPathAux (c ++ '/' :: rest) acc =
        splitPathAux ('/' :: rest) (c.reverse ++ acc) := by
  induction c with
  | nil => intro rest acc _; rfl
  | cons ch c ih =>
    intro rest acc hc
    have hch : ch ≠ '/' := fun h => hc (h ▸ List.mem_cons_self _ _)
    have hstep : splitPathAux ((ch :: c) ++ '/' :: rest) acc =
        splitPathAux (c ++ '/' :: rest) (ch :: acc) := by
      rw [List.cons_append, splitPathAux, if_neg hch]
    rw [hstep, ih rest (ch :: acc) (fun h => hc (List.mem_cons_of_mem _ h))]
    congr 1
    simp

theorem splitPath_single (c : List Char) (h1 : c ≠ []) (h2 : '/' ∉ c) :
    splitPath c = [c] := by
  unfold splitPath
  rw [splitPathAux_no_slash c [] h2]
  simp [splitPathAux, h1]

theorem splitPathAux_cons_comp (c rest : List Char) (h1 : c ≠ [])
    (h2 : '/' ∉ c) :
    splitPathAux (c ++ '/' :: rest) [] = c :: splitPathAux rest [] := by
  rw [splitPathAux_comp_slash c rest [] h2]
  rw [splitPathAux]
  simp [h1]

theorem splitPath_joinComps :
    ∀ (comps : List (List Char)), comps ≠ [] →
      (∀ c ∈ comps, c ≠ [] ∧ '/' ∉ c) →
      splitPath (joinComps comps) = comps
  | [], h, _ => absurd rfl h
  | [c], _, hval => by
    rw [joinComps]
    exact splitPath_single c (hval c (List.mem_singleton.mpr rfl)).1
      (hval c (List.mem_singleton.mpr rfl)).2
  | c :: c2 :: rest, _, hval => by
    show splitPathAux (c ++ '/' :: joinComps (c2 :: rest)) [] = _
    rw [splitPathAux_cons_comp c _ (hval c (List.mem_cons_self _ _)).1
      (hval c (List.mem_cons_self _ _)).2]
    have := splitPath_joinComps (c2 :: rest) (by simp)
      (fun u hu => hval u (List.mem_cons_of_mem _ hu))
    rw [show splitPathAux (joinComps (c2 :: rest)) [] =
      splitPath (joinComps (c2 :: rest)) from rfl, this]

theorem splitPathAux_joinComps_slash :
    ∀ (comps : List (List Char)) (rest : List Char), comps ≠ [] →
      (∀ c ∈ comps, c ≠ [] ∧ '/' ∉ c) →
      splitPathAux (joinComps comps ++ '/' :: rest) [] =
        comps ++ splitPathAux rest []
  | [], _, h, _ => absurd rfl h
  | [c], rest, _, hval => by
    rw [joinComps]
    exact splitPathAux_cons_comp c rest (hval c (List.mem_singleton.mpr rfl)).1
      (hval c (List.mem_singleton.mpr rfl)).2
  | c :: c2 :: cs, rest, _, hval => by
    show splitPathAux ((c ++ '/' :: joinComps (c2 :: cs)) ++ '/' :: rest) [] = _
    rw [List.append_assoc, List.cons_append]
    rw [splitPathAux_cons_comp c _ (hval c (List.mem_cons_self _ _)).1
      (hval c (List.mem_cons_self _ _)).2]
    rw [splitPathAux_joinComps_slash (c2 :: cs) rest (by simp)
      (fun u hu => hval u (List.mem_cons_of_mem _ hu))]
    rfl

theorem splitPath_cons_slash (cs : List Char) :
    splitPath ('/' :: cs) = splitPath cs := by
  show splitPathAux ('/' :: cs) [] = _
  rw [splitPathAux, if_pos rfl, if_pos rfl]
  rfl

theorem foldl_cleanStep_valid (rooted : Bool) :
    ∀ (comps : List (List Char)) (stack : List (List Char)),
      (∀ c ∈ comps, ValidComp c) →
      comps.foldl (cleanStep rooted) stack = stack ++ comps
  | [], stack, _ => by simp
  | c :: cs, stack, hval => by
    obtain ⟨_, _, h3, h4⟩ := hval c (List.mem_cons_self _ _)
    rw [List.foldl_cons]
    rw [show cleanStep rooted stack c = stack ++ [c] from by
      unfold cleanStep; rw [if_neg h3, if_neg h4]]
    rw [foldl_cleanStep_valid rooted cs (stack ++ [c])
      (fun u hu => hval u (List.mem_cons_of_mem _ hu))]
    simp

theorem joinComps_cons (c : List Char) (rest : List (List Char))
    (h : rest ≠ []) :
    joinComps (c :: rest) = c ++ '/' :: joinComps rest := by
  cases rest with
  | nil => exact absurd rfl h
  | cons c2 cs => rfl

theorem joinComps_append_single :
    ∀ (comps : List (List Char)) (x : List Char), comps ≠ [] →
      joinComps (comps ++ [x]) = joinComps comps ++ '/' :: x
  | [], _, h => absurd rfl h
  | [c], x, _ => rfl
  | c :: c2 :: cs, x, _ => by
    rw [List.cons_append, joinComps_cons c ((c2 :: cs) ++ [x]) (by simp),
      joinComps_cons c (c2 :: cs) (by simp),
      joinComps_append_single (c2 :: cs) x (by simp)]
    simp

theorem cleanChars_rooted (cs : List Char) (comps : List (List Char))
    (hne : cs ≠ []) (hhead : cs.head? = some '/')
    (hsplit : splitPath cs = comps) (hval : ∀ c ∈ comps, ValidComp c) :
    cleanChars cs = '/' :: joinComps comps := by
  unfold cleanChars
  rw [if_neg hne, hhead, hsplit]
  simp only [beq_self_eq_true, if_true]
  rw [foldl_cleanStep_valid true comps [] hval]
  simp

theorem cleanChars_abs_fixed (comps : List (List Char))
    (h1 : comps ≠ []) (hval : ∀ c ∈ comps, ValidComp c) :
    cleanChars ('/' :: joinComps comps) = '/' :: joinComps comps := by
  rw [cleanChars_rooted ('/' :: joinComps comps) comps (by simp) rfl
    (by rw [splitPath_cons_slash]
        exact splitPath_joinComps comps h1
          (fun c hc => ⟨(hval c hc).1, (hval c hc).2.1⟩)) hval]

-- ### goRelChars evaluation on cleaned absolute paths

theorem goRelChars_abs (bcs tcs : List Char) (bc tc : List (List Char))
    (hb : cleanChars bcs = '/' :: joinComps bc)
    (ht : cleanChars tcs = '/' :: joinComps tc)
    (hne : joinComps tc ≠ joinComps bc)
    (hsb : splitPath (joinComps bc) = bc)
    (hst : splitPath (joinComps tc) = tc) :
    goRelChars bcs tcs =
      if (stripCommon bc tc).1.head? = some ['.', '.'] then none
      else some (joinComps
        (List.replicate (stripCommon bc tc).1.length ['.', '.'] ++
          (stripCommon bc tc).2)) := by
  unfold goRelChars
  rw [hb, ht]
  rw [if_neg (by simp [hne])]
  rw [if_neg (by simp : ¬('/' :: joinComps bc = ['.']))]
  rw [if_neg (by simp)]
  rw [splitPath_cons_slash, splitPath_cons_slash, hsb, hst]

theorem stripCommon_append_left :
    ∀ (a b : List (List Char)), stripCommon a (a ++ b) = ([], b)
  | [], b => by cases b <;> rfl
  | c :: a, b => by
    rw [List.cons_append, stripCommon, if_pos rfl]
    exact stripCommon_append_left a b

theorem stripCommon_append_both :
    ∀ (f a b : List (List Char)), stripCommon (f ++ a) (f ++ b) =
      stripCommon a b
  | [], a, b => rfl
  | c :: f, a, b => by
    rw [List.cons_append, List.cons_append, stripCommon, if_pos rfl]
    exact stripCommon_append_both f a b

theorem stripCommon_nil_right (a : List (List Char)) :
    stripCommon a [] = (a, []) := by
  cases a <;> rfl

theorem stripCommon_cons_ne (a b : List Char)
    (as bs : List (List Char)) (h : a ≠ b) :
    stripCommon (a :: as) (b :: bs) = (a :: as, b :: bs) := by
  rw [stripCommon, if_neg h]

theorem isUnderPath_self (s : String) : isUnderPath s s = true := by
  unfold isUnderPath
  have h : goRelChars s.toList s.toList = some ['.'] := by
    unfold goRelChars
    simp
  rw [h]
  rfl

theorem isUnderPath_child (comps : List (List Char)) (h1 : comps ≠ [])
    (hval : ∀ c ∈ comps, ValidComp c) (x : List Char) (hx1 : x ≠ [])
    (hx2 : '/' ∉ x) (hx3 : ¬ List.isPrefixOf ['.', '.'] x = true) :
    isUnderPath (absPath comps ++ "/" ++ List.asString x) (absPath comps) =
      true := by
  have hvalw : ∀ c ∈ comps, c ≠ [] ∧ '/' ∉ c :=
    fun c hc => ⟨(hval c hc).1, (hval c hc).2.1⟩
  have hbase : (absPath comps).toList = '/' :: joinComps comps := rfl
  have htarg : (absPath comps ++ "/" ++ List.asString x).toList =
      '/' :: (joinComps comps ++ '/' :: x) := by
    show (('/' :: joinComps comps) ++ ['/']) ++ x = _
    simp
  by_cases hdot : x = ['.']
  · subst hdot
    have hsplit : splitPath ('/' :: (joinComps comps ++ '/' :: ['.'])) =
        comps ++ [['.']] := by
      rw [splitPath_cons_slash]
      show splitPathAux (joinComps comps ++ '/' :: ['.']) [] = _
      rw [splitPathAux_joinComps_slash comps ['.'] h1 hvalw]
      rfl
    have hclean : cleanChars ('/' :: (joinComps comps ++ '/' :: ['.'])) =
        '/' :: joinComps comps := by
      unfold cleanChars
      rw [if_neg (by simp), hsplit]
      simp only [List.head?_cons, beq_self_eq_true, if_true]
      rw [List.foldl_append, foldl_cleanStep_valid true comps [] hval]
      simp [cleanStep]
    unfold isUnderPath
    have hrel : goRelChars (absPath comps).toList
        (absPath comps ++ "/" ++ List.asString ['.']).toList = some ['.'] := by
      unfold goRelChars
      rw [hbase, htarg, hclean, cleanChars_abs_fixed comps h1 hval, if_pos rfl]
    rw [hrel]
    rfl
  · have hxv : ValidComp x := ⟨hx1, hx2, hdot, fun h => hx3 (by rw [h]; rfl)⟩
    have hval2 : ∀ c ∈ comps ++ [x], ValidComp c := by
      intro c hc
      rcases List.mem_append.mp hc with h | h
      · exact hval c h
      · rcases List.mem_singleton.mp h with rfl
        exact hxv
    have hje : joinComps (comps ++ [x]) = joinComps comps ++ '/' :: x :=
      joinComps_append_single comps x h1
    have hrel := goRelChars_abs (absPath comps).toList
      (absPath comps ++ "/" ++ List.asString x).toList comps (comps ++ [x])
      (by rw [hbase]; exact cleanChars_abs_fixed comps h1 hval)
      (by rw [htarg, ← hje]
          exact cleanChars_abs_fixed (comps ++ [x]) (by simp) hval2)
      (by rw [hje]
          intro h
          have := congrArg List.length h
          simp at this)
      (splitPath_joinComps comps h1 hvalw)
      (splitPath_joinComps (comps ++ [x]) (by simp)
        (fun c hc => ⟨(hval2 c hc).1, (hval2 c hc).2.1⟩))
    rw [stripCommon_append_left comps [x]] at hrel
    simp only [List.head?_nil, List.length_nil, List.replicate_zero,
      List.nil_append, reduceCtorEq, if_false] at hrel
    unfold isUnderPath
    rw [hrel]
    show (!(List.isPrefixOf ['.', '.'] (joinComps [x])) &&
      !((joinComps [x]).head? == some '/')) = true
    have hjx : joinComps [x] = x := rfl
    rw [hjx]
    rcases x with _ | ⟨c, x2⟩
    · exact absurd rfl hx1
    · have hc : c ≠ '/' := fun h => hx2 (h ▸ List.mem_cons_self _ _)
      simp [hx3, hc]

theorem joinComps_last_append :
    ∀ (front : List (List Char)) (lastc ext : List Char),
      joinComps (front ++ [lastc]) ++ ext =
        joinComps (front ++ [lastc ++ ext])
  | [], lastc, ext => rfl
  | f :: fr, lastc, ext => by
    rw [List.cons_append, joinComps_cons f (fr ++ [lastc]) (by simp),
      List.cons_append, joinComps_cons f (fr ++ [lastc ++ ext]) (by simp),
      ← joinComps_last_append fr lastc ext]
    simp

theorem isPrefixOf_dotdot (r : List Char) :
    List.isPrefixOf ['.', '.'] ('.' :: '.' :: r) = true := by
  simp [List.isPrefixOf]

-- ### Part 3: a sibling sharing a string prefix

theorem isUnderPath_sibling (comps : List (List Char)) (h1 : comps ≠ [])
    (hval : ∀ c ∈ comps, ValidComp c) :
    isUnderPath (absPath comps ++ "2") (absPath comps) = false := by
  obtain ⟨front, lastc, rfl⟩ : ∃ front lastc, comps = front ++ [lastc] :=
    ⟨comps.dropLast, comps.getLast h1,
      (List.dropLast_append_getLast h1).symm⟩
  have hlast := hval lastc (by simp)
  have hlv : ValidComp (lastc ++ ['2']) := by
    refine ⟨by simp, ?_, ?_, ?_⟩
    · intro hm
      rcases List.mem_append.mp hm with h | h
      · exact hlast.2.1 h
      · exact absurd (List.mem_singleton.mp h) (by decide)
    · intro h
      have h2 : '2' ∈ ('.' :: ([] : List Char)) :=
        h ▸ List.mem_append_right lastc (List.mem_singleton.mpr rfl)
      exact absurd (List.mem_singleton.mp h2) (by decide)
    · intro h
      have h2 : '2' ∈ ('.' :: '.' :: ([] : List Char)) :=
        h ▸ List.mem_append_right lastc (List.mem_singleton.mpr rfl)
      rcases List.mem_cons.mp h2 with h3 | h3
      · exact absurd h3 (by decide)
      · exact absurd (List.mem_singleton.mp h3) (by decide)
  have hval2 : ∀ c ∈ front ++ [lastc ++ ['2']], ValidComp c := by
    intro c hc
    rcases List.mem_append.mp hc with h | h
    · exact hval c (List.mem_append_left _ h)
    · rcases List.mem_singleton.mp h with rfl
      exact hlv
  have hj2 : joinComps (front ++ [lastc]) ++ ['2'] =
      joinComps (front ++ [lastc ++ ['2']]) :=
    joinComps_last_append front lastc ['2']
  have hbase : (absPath (front ++ [lastc])).toList =
      '/' :: joinComps (front ++ [lastc]) := rfl
  have htarg : (absPath (front ++ [lastc]) ++ "2").toList =
      '/' :: (joinComps (front ++ [lastc]) ++ ['2']) := by
    show ('/' :: joinComps (front ++ [lastc])) ++ ['2'] = _
    simp
  have hrel := goRelChars_abs (absPath (front ++ [lastc])).toList
    (absPath (front ++ [lastc]) ++ "2").toList
    (front ++ [lastc]) (front ++ [lastc ++ ['2']])
    (by rw [hbase]; exact cleanChars_abs_fixed _ (by simp) hval)
    (by rw [htarg, hj2]
        exact cleanChars_abs_fixed _ (by simp) hval2)
    (by rw [← hj2]
        intro h
        have := congrArg List.length h
        simp at this)
    (splitPath_joinComps _ (by simp)
      (fun c hc => ⟨(hval c hc).1, (hval c hc).2.1⟩))
    (splitPath_joinComps _ (by simp)
      (fun c hc => ⟨(hval2 c hc).1, (hval2 c hc).2.1⟩))
  rw [stripCommon_append_both front [lastc] [lastc ++ ['2']],
    stripCommon_cons_ne lastc (lastc ++ ['2']) [] []
      (by intro h
          have := congrArg List.length h
          simp at this)] at hrel
  have hne2 : ¬(([lastc] : List (List Char)).head? = some ['.', '.']) := by
    simp [hlast.2.2.2]
  rw [if_neg hne2] at hrel
  unfold isUnderPath
  rw [hrel]
  show (!(List.isPrefixOf ['.', '.']
    (joinComps (List.replicate 1 ['.', '.'] ++ [lastc ++ ['2']]))) && _) = false
  have hshape : joinComps (List.replicate 1 ['.', '.'] ++ [lastc ++ ['2']]) =
      '.' :: '.' :: ('/' :: (lastc ++ ['2'])) := rfl
  rw [hshape, isPrefixOf_dotdot]
  rfl

theorem dropWhile_no_slash :
    ∀ (l rest : List Char), (∀ ch ∈ l, ch ≠ '/') →
      (l ++ '/' :: rest).dropWhile (fun c => c != '/') = '/' :: rest
  | [], rest, _ => by simp [List.dropWhile]
  | ch :: l, rest, h => by
    rw [List.cons_append, List.dropWhile_cons]
    rw [if_pos (by simp [h ch (List.mem_cons_self _ _)])]
    exact dropWhile_no_slash l rest (fun c hc => h c (List.mem_cons_of_mem _ hc))

theorem dirChars_abs (front : List (List Char)) (lastc : List Char)
    (hval : ∀ c ∈ front ++ [lastc], ValidComp c) :
    dirChars ('/' :: joinComps (front ++ [lastc])) = '/' :: joinComps front := by
  have hlast := hval lastc (by simp)
  have hvalf : ∀ c ∈ front, ValidComp c :=
    fun c hc => hval c (List.mem_append_left _ hc)
  rcases front with _ | ⟨f, fr⟩
  · -- single component: the parent is the root
    have hrev : ('/' :: joinComps ([] ++ [lastc])).reverse =
        lastc.reverse ++ '/' :: [] := by
      simp [joinComps]
    unfold dirChars
    rw [hrev, dropWhile_no_slash lastc.reverse []
      (fun c hc => (fun h => hlast.2.1 (h ▸ List.mem_reverse.mp hc)))]
    rfl
  · have hsplit2 : joinComps ((f :: fr) ++ [lastc]) =
        joinComps (f :: fr) ++ '/' :: lastc :=
      joinComps_append_single (f :: fr) lastc (by simp)
    have hrev : ('/' :: joinComps ((f :: fr) ++ [lastc])).reverse =
        lastc.reverse ++ '/' :: (joinComps (f :: fr)).reverse ++ ['/'] := by
      rw [hsplit2]
      simp
    unfold dirChars
    rw [hrev]
    rw [show lastc.reverse ++ '/' :: (joinComps (f :: fr)).reverse ++ ['/'] =
      lastc.reverse ++ '/' :: ((joinComps (f :: fr)).reverse ++ ['/']) from by
        simp]
    rw [dropWhile_no_slash lastc.reverse _
      (fun c hc => (fun h => hlast.2.1 (h ▸ List.mem_reverse.mp hc)))]
    have hpre : ('/' :: ((joinComps (f :: fr)).reverse ++ ['/'])).reverse =
        '/' :: (joinComps (f :: fr) ++ '/' :: []) := by
      simp
    rw [hpre]
    rw [cleanChars_rooted ('/' :: (joinComps (f :: fr) ++ '/' :: []))
      (f :: fr) (by simp) rfl ?hs hvalf]
    case hs =>
      rw [splitPath_cons_slash]
      show splitPathAux (joinComps (f :: fr) ++ '/' :: []) [] = _
      rw [splitPathAux_joinComps_slash (f :: fr) [] (by simp)
        (fun c hc => ⟨(hvalf c hc).1, (hvalf c hc).2.1⟩)]
      simp [splitPathAux]

theorem isUnderPath_parent (comps : List (List Char)) (h1 : comps ≠ [])
    (hval : ∀ c ∈ comps, ValidComp c) :
    isUnderPath (dir (absPath comps)) (absPath comps) = false := by
  obtain ⟨front, lastc, rfl⟩ : ∃ front lastc, comps = front ++ [lastc] :=
    ⟨comps.dropLast, comps.getLast h1,
      (List.dropLast_append_getLast h1).symm⟩
  have hlast := hval lastc (by simp)
  have hvalf : ∀ c ∈ front, ValidComp c :=
    fun c hc => hval c (List.mem_append_left _ hc)
  have hdir : (dir (absPath (front ++ [lastc]))).toList =
      '/' :: joinComps front := by
    show (dirChars ('/' :: joinComps (front ++ [lastc]))) = _
    exact dirChars_abs front lastc hval
  have hbase : (absPath (front ++ [lastc])).toList =
      '/' :: joinComps (front ++ [lastc]) := rfl
  have hja : joinComps (front ++ [lastc]) = joinComps front ++ '/' :: lastc ∨
      (front = [] ∧ joinComps (front ++ [lastc]) = lastc) := by
    rcases front with _ | ⟨f, fr⟩
    · exact Or.inr ⟨rfl, rfl⟩
    · exact Or.inl (joinComps_append_single (f :: fr) lastc (by simp))
  have hne : joinComps front ≠ joinComps (front ++ [lastc]) := by
    rcases hja with h | ⟨hfe, h⟩
    · rw [h]
      intro h2
      have := congrArg List.length h2
      simp at this
    · subst hfe
      rw [h]
      intro h2
      exact hlast.1 h2.symm
  have hrel := goRelChars_abs (absPath (front ++ [lastc])).toList
    (dir (absPath (front ++ [lastc]))).toList
    (front ++ [lastc]) front
    (by rw [hbase]; exact cleanChars_abs_fixed _ (by simp) hval)
    ?ht hne
    (splitPath_joinComps _ (by simp)
      (fun c hc => ⟨(hval c hc).1, (hval c hc).2.1⟩))
    ?hsf
  case ht =>
    rw [hdir]
    rcases front with _ | ⟨f, fr⟩
    · rfl
    · exact cleanChars_abs_fixed (f :: fr) (by simp) hvalf
  case hsf =>
    rcases front with _ | ⟨f, fr⟩
    · rfl
    · exact splitPath_joinComps (f :: fr) (by simp)
        (fun c hc => ⟨(hvalf c hc).1, (hvalf c hc).2.1⟩)
  rw [show stripCommon (front ++ [lastc]) front = ([lastc], []) from by
    rw [show (front : List (List Char)) = front ++ [] from by simp] at hrel ⊢
    rw [show ((front ++ []) ++ [lastc] : List (List Char)) = front ++ [lastc]
      from by simp]
    rw [stripCommon_append_both front [lastc] []]
    exact stripCommon_nil_right [lastc]] at hrel
  have hne2 : ¬(([lastc] : List (List Char)).head? = some ['.', '.']) := by
    simp [hlast.2.2.2]
  rw [if_neg hne2] at hrel
  unfold isUnderPath
  rw [hrel]
  rfl

/-! ### Lemmas about the unmount loop -/

/-- Every event emitted by the unmount loop is an unmount or a lazy-unmount
call on the path of an enumerated record that is not the data-dir root and
satisfies the ownership test. -/
theorem runMounts_mem_events (cfg : Config) (w : World) :
    ∀ (l : List MountPoint) (m : Bool) (e : Event),
      e ∈ (runMounts cfg w l m).2 →
      ∃ u ∈ l, u.path ≠ cfg.k0sVarsDataDir ∧ ownedMount cfg u.path = true ∧
        (e = .unmount u.path ∨ e = .unmountLazy u.path)
  | [], m, e, h => by simp [runMounts] at h
  | v :: rest, m, e, h => by
    by_cases hd : v.path = cfg.k0sVarsDataDir
    · rw [runMounts, if_pos hd] at h
      obtain ⟨u, hu, hrest⟩ := runMounts_mem_events cfg w rest true e h
      exact ⟨u, List.mem_cons_of_mem v hu, hrest⟩
    · by_cases how : ownedMount cfg v.path = true
      · by_cases hok : w.unmountOk v.path = true
        · rw [runMounts, if_neg hd, if_pos how, if_pos hok] at h
          rcases List.mem_cons.mp h with he | h
          · exact ⟨v, List.mem_cons_self v rest, hd, how, Or.inl he⟩
          · obtain ⟨u, hu, hrest⟩ := runMounts_mem_events cfg w rest m e h
            exact ⟨u, List.mem_cons_of_mem v hu, hrest⟩
        · by_cases hlz : w.lazyUnmountOk v.path = true
          · rw [runMounts, if_neg hd, if_pos how, if_neg hok, if_pos hlz] at h
            rcases List.mem_cons.mp h with he | h
            · exact ⟨v, List.mem_cons_self v rest, hd, how, Or.inl he⟩
            · rcases List.mem_cons.mp h with he | h
              · exact ⟨v, List.mem_cons_self v rest, hd, how, Or.inr he⟩
              · obtain ⟨u, hu, hrest⟩ := runMounts_mem_events cfg w rest m e h
                exact ⟨u, List.mem_cons_of_mem v hu, hrest⟩
          · rw [runMounts, if_neg hd, if_pos how, if_neg hok, if_neg hlz] at h
            rcases List.mem_cons.mp h with he | h
            · exact ⟨v, List.mem_cons_self v rest, hd, how, Or.inl he⟩
            · rcases List.mem_cons.mp h with he | h
              · exact ⟨v, List.mem_cons_self v rest, hd, how, Or.inr he⟩
              · simp at h
      · rw [runMounts, if_neg hd, if_neg how] at h
        obtain ⟨u, hu, hrest⟩ := runMounts_mem_events cfg w rest m e h
        exact ⟨u, List.mem_cons_of_mem v hu, hrest⟩

/-- If some enumerated record is owned and fails both unmount attempts,
the loop returns the error `fmt.Errorf("failed unmount %v", u.Path)` for
such a record `u`. -/
theorem runMounts_bothFail (cfg : Config) (w : World) :
    ∀ (l : List MountPoint) (m : Bool),
      (∃ v ∈ l, v.path ≠ cfg.k0sVarsDataDir ∧ ownedMount cfg v.path = true ∧
        w.unmountOk v.path = false ∧ w.lazyUnmountOk v.path = false) →
      ∃ u ∈ l, u.path ≠ cfg.k0sVarsDataDir ∧ ownedMount cfg u.path = true ∧
        w.unmountOk u.path = false ∧ w.lazyUnmountOk u.path = false ∧
        (runMounts cfg w l m).1 =
          .error (.simple ("failed unmount " ++ u.path))
  | [], m, hex => by simp at hex
  | v :: rest, m, hex => by
    by_cases hd : v.path = cfg.k0sVarsDataDir
    · have hex' : ∃ v ∈ rest, v.path ≠ cfg.k0sVarsDataDir ∧
          ownedMount cfg v.path = true ∧ w.unmountOk v.path = false ∧
          w.lazyUnmountOk v.path = false := by
        obtain ⟨u, hu, h1, h2⟩ := hex
        rcases List.mem_cons.mp hu with rfl | hu
        · exact absurd hd h1
        · exact ⟨u, hu, h1, h2⟩
      obtain ⟨u, hu, hrest⟩ := runMounts_bothFail cfg w rest true hex'
      refine ⟨u, List.mem_cons_of_mem v hu, ?_⟩
      rw [runMounts, if_pos hd]
      exact hrest
    · by_cases how : ownedMount cfg v.path = true
      · by_cases hok : w.unmountOk v.path = true
        · have hex' : ∃ v ∈ rest, v.path ≠ cfg.k0sVarsDataDir ∧
              ownedMount cfg v.path = true ∧ w.unmountOk v.path = false ∧
              w.lazyUnmountOk v.path = false := by
            obtain ⟨u, hu, h1, h2, h3, h4⟩ := hex
            rcases List.mem_cons.mp hu with rfl | hu
            · rw [hok] at h3; exact absurd h3 (by simp)
            · exact ⟨u, hu, h1, h2, h3, h4⟩
          obtain ⟨u, hu, hrest⟩ := runMounts_bothFail cfg w rest m hex'
          refine ⟨u, List.mem_cons_of_mem v hu, ?_⟩
          rw [runMounts, if_neg hd, if_pos how, if_pos hok]
          exact hrest
        · by_cases hlz : w.lazyUnmountOk v.path = true
          · have hex' : ∃ v ∈ rest, v.path ≠ cfg.k0sVarsDataDir ∧
                ownedMount cfg v.path = true ∧ w.unmountOk v.path = false ∧
                w.lazyUnmountOk v.path = false := by
              obtain ⟨u, hu, h1, h2, h3, h4⟩ := hex
              rcases List.mem_cons.mp hu with rfl | hu
              · rw [hlz] at h4; exact absurd h4 (by simp)
              · exact ⟨u, hu, h1, h2, h3, h4⟩
            obtain ⟨u, hu, hrest⟩ := runMounts_bothFail cfg w rest m hex'
            refine ⟨u, List.mem_cons_of_mem v hu, ?_⟩
            rw [runMounts, if_neg hd, if_pos how, if_neg hok, if_pos hlz]
            exact hrest
          · refine ⟨v, List.mem_cons_self v rest, hd, how,
              Bool.not_eq_true _ ▸ hok, Bool.not_eq_true _ ▸ hlz, ?_⟩
            rw [runMounts, if_neg hd, if_pos how, if_neg hok, if_neg hlz]
      · have hex' : ∃ v ∈ rest, v.path ≠ cfg.k0sVarsDataDir ∧
            ownedMount cfg v.path = true ∧ w.unmountOk v.path = false ∧
            w.lazyUnmountOk v.path = false := by
          obtain ⟨u, hu, h1, h2, h3⟩ := hex
          rcases List.mem_cons.mp hu with rfl | hu
          · exact absurd h2 how
          · exact ⟨u, hu, h1, h2, h3⟩
        obtain ⟨u, hu, hrest⟩ := runMounts_bothFail cfg w rest m hex'
        refine ⟨u, List.mem_cons_of_mem v hu, ?_⟩
        rw [runMounts, if_neg hd, if_neg how]
        exact hrest

/-- If the loop finishes without an error, the returned `dataDirMounted`
flag is true exactly when it started true or some traversed record's path
equals `k0sVars.DataDir`. -/
theorem runMounts_flag (cfg : Config) (w : World) :
    ∀ (l : List MountPoint) (m0 m : Bool),
      (runMounts cfg w l m0).1 = .ok m →
      (m = true ↔ (m0 = true ∨ ∃ v ∈ l, v.path = cfg.k0sVarsDataDir))
  | [], m0, m, h => by
    simp only [runMounts] at h
    cases h
    simp
  | v :: rest, m0, m, h => by
    by_cases hd : v.path = cfg.k0sVarsDataDir
    · rw [runMounts, if_pos hd] at h
      have := runMounts_flag cfg w rest true m h
      rw [this]
      constructor
      · intro _
        exact Or.inr ⟨v, List.mem_cons_self v rest, hd⟩
      · intro _
        exact Or.inl rfl
    · by_cases how : ownedMount cfg v.path = true
      · by_cases hok : w.unmountOk v.path = true
        · rw [runMounts, if_neg hd, if_pos how, if_pos hok] at h
          have := runMounts_flag cfg w rest m0 m h
          rw [this]
          simp only [List.mem_cons]
          constructor
          · rintro (h0 | ⟨u, hu, hp⟩)
            · exact Or.inl h0
            · exact Or.inr ⟨u, Or.inr hu, hp⟩
          · rintro (h0 | ⟨u, rfl | hu, hp⟩)
            · exact Or.inl h0
            · exact absurd hp hd
            · exact Or.inr ⟨u, hu, hp⟩
        · by_cases hlz : w.lazyUnmountOk v.path = true
          · rw [runMounts, if_neg hd, if_pos how, if_neg hok, if_pos hlz] at h
            have := runMounts_flag cfg w rest m0 m h
            rw [this]
            simp only [List.mem_cons]
            constructor
            · rintro (h0 | ⟨u, hu, hp⟩)
              · exact Or.inl h0
              · exact Or.inr ⟨u, Or.inr hu, hp⟩
            · rintro (h0 | ⟨u, rfl | hu, hp⟩)
              · exact Or.inl h0
              · exact absurd hp hd
              · exact Or.inr ⟨u, hu, hp⟩
          · rw [runMounts, if_neg hd, if_pos how, if_neg hok, if_neg hlz] at h
            cases h
      · rw [runMounts, if_neg hd, if_neg how] at h
        have := runMounts_flag cfg w rest m0 m h
        rw [this]
        simp only [List.mem_cons]
        constructor
        · rintro (h0 | ⟨u, hu, hp⟩)
          · exact Or.inl h0
          · exact Or.inr ⟨u, Or.inr hu, hp⟩
        · rintro (h0 | ⟨u, rfl | hu, hp⟩)
          · exact Or.inl h0
          · exact absurd hp hd
          · exact Or.inr ⟨u, hu, hp⟩

/-- If no enumerated record is the data-dir root or owned, the loop is a
pure no-op: it keeps the flag and emits no event. -/
theorem runMounts_skip_all (cfg : Config) (w : World) :
    ∀ (l : List MountPoint) (m : Bool),
      (∀ v ∈ l, v.path ≠ cfg.k0sVarsDataDir ∧ ownedMount cfg v.path = false) →
      runMounts cfg w l m = (.ok m, [])
  | [], m, _ => rfl
  | v :: rest, m, hall => by
    obtain ⟨hd, how⟩ := hall v (List.mem_cons_self v rest)
    rw [runMounts, if_neg hd, if_neg (by simp [how])]
    exact runMounts_skip_all cfg w rest m
      (fun u hu => hall u (List.mem_cons_of_mem v hu))

/-- A lazy unmount of a path is only ever attempted when the normal
unmount oracle fails for that path. -/
theorem runMounts_lazy_mem (cfg : Config) (w : World) :
    ∀ (l : List MountPoint) (m : Bool) (p : String),
      Event.unmountLazy p ∈ (runMounts cfg w l m).2 →
      w.unmountOk p = false
  | [], m, p, h => by simp [runMounts] at h
  | v :: rest, m, p, h => by
    by_cases hd : v.path = cfg.k0sVarsDataDir
    · rw [runMounts, if_pos hd] at h
      exact runMounts_lazy_mem cfg w rest true p h
    · by_cases how : ownedMount cfg v.path = true
      · by_cases hok : w.unmountOk v.path = true
        · rw [runMounts, if_neg hd, if_pos how, if_pos hok] at h
          rcases List.mem_cons.mp h with he | h
          · exact absurd he (by simp)
          · exact runMounts_lazy_mem cfg w rest m p h
        · by_cases hlz : w.lazyUnmountOk v.path = true
          · rw [runMounts, if_neg hd, if_pos how, if_neg hok, if_pos hlz] at h
            rcases List.mem_cons.mp h with he | h
            · exact absurd he (by simp)
            · rcases List.mem_cons.mp h with he | h
              · cases he
                exact Bool.not_eq_true _ ▸ hok
              · exact runMounts_lazy_mem cfg w rest m p h
          · rw [runMounts, if_neg hd, if_pos how, if_neg hok, if_neg hlz] at h
            rcases List.mem_cons.mp h with he | h
            · exact absurd he (by simp)
            · rcases List.mem_cons.mp h with he | h
              · cases he
                exact Bool.not_eq_true _ ▸ hok
              · simp at h
      · rw [runMounts, if_neg hd, if_neg how] at h
        exact runMounts_lazy_mem cfg w rest m p h

/-! ### Lemmas about the erase phase and `Run` -/

/-- `errorIsUnlinkat` on a non-nil error succeeds exactly when `errors.As`
finds a path error whose operation is `"unlinkat"` and whose path is the
directory. -/
theorem errorIsUnlinkat_iff (e : GoError) (d : String) :
    errorIsUnlinkat (some e) d = true ↔
      asPathError e = some ("unlinkat", d) := by
  show (match asPathError e with
        | none => false
        | some pe => pe.2 == d && pe.1 == "unlinkat") = true ↔ _
  rcases h : asPathError e with _ | ⟨op, p⟩
  · simp
  · show (p == d && op == "unlinkat") = true ↔ _
    simp only [Bool.and_eq_true, beq_iff_eq, Option.some.injEq, Prod.mk.injEq]
    constructor
    · rintro ⟨rfl, rfl⟩
      exact ⟨rfl, rfl⟩
    · rintro ⟨rfl, rfl⟩
      exact ⟨rfl, rfl⟩

/-- The run-dir erase step always performs exactly the one `RemoveAll`
call on `runDir`. -/
theorem eraseRunDir_events (cfg : Config) (w : World) :
    (eraseRunDir cfg w).2 = [Event.removeAll cfg.runDir] := by
  unfold eraseRunDir
  cases h : w.removeAllResult cfg.runDir <;> simp

/-- The erase phase performs either only the data-dir `RemoveAll` call
(when that call fails fatally) or exactly the data-dir and then the
run-dir `RemoveAll` calls. -/
theorem eraseDirs_trace (cfg : Config) (w : World) (m : Bool) :
    (eraseDirs cfg w m).2 = [Event.removeAll cfg.dataDir] ∨
      (eraseDirs cfg w m).2 =
        [Event.removeAll cfg.dataDir, Event.removeAll cfg.runDir] := by
  unfold eraseDirs
  rcases hda : w.removeAllResult cfg.dataDir with _ | err
  · right
    simp [eraseRunDir_events]
  · by_cases hm : (!m) = true
    · left
      simp [hm]
    · by_cases hu : (!errorIsUnlinkat (some err) cfg.dataDir) = true
      · left
        simp [hm, hu]
      · right
        simp [hm, hu, eraseRunDir_events]

/-- Every event of the erase phase is a `RemoveAll` call. -/
theorem eraseDirs_events (cfg : Config) (w : World) (m : Bool) (e : Event) :
    e ∈ (eraseDirs cfg w m).2 → ∃ p, e = .removeAll p := by
  intro hmem
  rcases eraseDirs_trace cfg w m with h | h
  · rw [h] at hmem
    rcases List.mem_singleton.mp hmem with rfl
    exact ⟨cfg.dataDir, rfl⟩
  · rw [h] at hmem
    rcases List.mem_cons.mp hmem with rfl | hmem
    · exact ⟨cfg.dataDir, rfl⟩
    · rcases List.mem_singleton.mp hmem with rfl
      exact ⟨cfg.runDir, rfl⟩

/-- Unfolding `Run` when listing succeeds and the unmount loop fails. -/
theorem Run_err (cfg : Config) (w : World) (mounts : List MountPoint)
    (e : GoError) (hls : w.listResult = .ok mounts)
    (hrm : (runMounts cfg w mounts.reverse false).1 = .error e) :
    Run cfg w = (some e, (runMounts cfg w mounts.reverse false).2) := by
  simp only [Run, hls, hrm]

/-- Unfolding `Run` when listing succeeds and the unmount loop finishes. -/
theorem Run_ok (cfg : Config) (w : World) (mounts : List MountPoint)
    (m : Bool) (hls : w.listResult = .ok mounts)
    (hrm : (runMounts cfg w mounts.reverse false).1 = .ok m) :
    Run cfg w = ((eraseDirs cfg w m).1,
      (runMounts cfg w mounts.reverse false).2 ++ (eraseDirs cfg w m).2) := by
  simp only [Run, hls, hrm]

/-- When the data-dir deletion is tolerated (no error, or `dataDirMounted`
with an accepted unlinkat error), the erase phase proceeds to the run-dir
deletion. -/
theorem eraseDirs_tolerated (cfg : Config) (w : World) (m : Bool)
    (htol : w.removeAllResult cfg.dataDir = none ∨
      (m = true ∧
        errorIsUnlinkat (w.removeAllResult cfg.dataDir) cfg.dataDir = true)) :
    eraseDirs cfg w m =
      ((eraseRunDir cfg w).1,
        .removeAll cfg.dataDir :: (eraseRunDir cfg w).2) := by
  unfold eraseDirs
  rcases hda : w.removeAllResult cfg.dataDir with _ | err
  · rfl
  · rcases htol with h | ⟨hm, hu⟩
    · rw [hda] at h
      cases h
    · rw [hda] at hu
      simp [hm, hu]

/-- Unfolding `eraseRunDir` when the run-dir deletion succeeds. -/
theorem eraseRunDir_none (cfg : Config) (w : World)
    (h : w.removeAllResult cfg.runDir = none) :
    eraseRunDir cfg w = (none, [Event.removeAll cfg.runDir]) := by
  unfold eraseRunDir
  rw [h]

/-- Unfolding `eraseRunDir` when the run-dir deletion fails. -/
theorem eraseRunDir_some (cfg : Config) (w : World) (e2 : GoError)
    (h : w.removeAllResult cfg.runDir = some e2) :
    eraseRunDir cfg w =
      (some (.errorf ("failed to delete " ++ cfg.runDir) e2),
        [Event.removeAll cfg.runDir]) := by
  unfold eraseRunDir
  rw [h]

/-- Unfolding `eraseDirs` when the data-dir deletion fails and the data
dir was not mounted. -/
theorem eraseDirs_fatal_unmounted (cfg : Config) (w : World) (m : Bool)
    (err : GoError) (hda : w.removeAllResult cfg.dataDir = some err)
    (hm : m = false) :
    eraseDirs cfg w m =
      (some (.errorf "failed to delete k0s generated data-dir" err),
        [Event.removeAll cfg.dataDir]) := by
  unfold eraseDirs
  rw [hda]
  simp [hm]

/-- Unfolding `eraseDirs` when the data-dir deletion fails while the data
dir was mounted, but the failure is not the tolerated unlinkat shape. -/
theorem eraseDirs_fatal_mounted (cfg : Config) (w : World) (m : Bool)
    (err : GoError) (hda : w.removeAllResult cfg.dataDir = some err)
    (hm : m = true) (hu : errorIsUnlinkat (some err) cfg.dataDir = false) :
    eraseDirs cfg w m =
      (some (.errorf "failed to delete contents of mounted data-dir" err),
        [Event.removeAll cfg.dataDir]) := by
  unfold eraseDirs
  rw [hda]
  simp [hm, hu]

/-! ### Lemmas about the order of unmount events -/

/-- The event trace of the unmount loop does not depend on the incoming
`dataDirMounted` flag: it is `evList`. -/
theorem runMounts_events_eq (cfg : Config) (w : World) :
    ∀ (l : List MountPoint) (m : Bool),
      (runMounts cfg w l m).2 = evList cfg w l
  | [], _ => rfl
  | v :: rest, m => by
    by_cases hd : v.path = cfg.k0sVarsDataDir
    · rw [runMounts, if_pos hd, evList, if_pos hd]
      exact runMounts_events_eq cfg w rest true
    · by_cases how : ownedMount cfg v.path = true
      · by_cases hok : w.unmountOk v.path = true
        · rw [runMounts, if_neg hd, if_pos how, if_pos hok,
            evList, if_neg hd, if_pos how, if_pos hok]
          show Event.unmount v.path :: (runMounts cfg w rest m).2 = _
          rw [runMounts_events_eq cfg w rest m]
        · by_cases hlz : w.lazyUnmountOk v.path = true
          · rw [runMounts, if_neg hd, if_pos how, if_neg hok, if_pos hlz,
              evList, if_neg hd, if_pos how, if_neg hok, if_pos hlz]
            show Event.unmount v.path :: Event.unmountLazy v.path ::
              (runMounts cfg w rest m).2 = _
            rw [runMounts_events_eq cfg w rest m]
          · rw [runMounts, if_neg hd, if_pos how, if_neg hok, if_neg hlz,
              evList, if_neg hd, if_pos how, if_neg hok, if_neg hlz]
      · rw [runMounts, if_neg hd, if_neg how, evList, if_neg hd, if_neg how]
        exact runMounts_events_eq cfg w rest m

/-- Every event of `evList` belongs to an owned non-root record. -/
theorem evList_mem (cfg : Config) (w : World) (l : List MountPoint) (e : Event)
    (h : e ∈ evList cfg w l) :
    ∃ u ∈ l, u.path ≠ cfg.k0sVarsDataDir ∧ ownedMount cfg u.path = true ∧
      (e = .unmount u.path ∨ e = .unmountLazy u.path) := by
  rw [← runMounts_events_eq cfg w l false] at h
  exact runMounts_mem_events cfg w l false e h

/-- No unmount event for a path outside the list's paths. -/
theorem evList_no_foreign_unmount (cfg : Config) (w : World)
    (l : List MountPoint) (p : String) (hp : p ∉ l.map MountPoint.path) :
    Event.unmount p ∉ evList cfg w l := by
  intro hmem
  obtain ⟨u, hu, _, _, hshape⟩ := evList_mem cfg w l _ hmem
  rcases hshape with h | h
  · simp only [Event.unmount.injEq] at h
    exact hp (h ▸ List.mem_map_of_mem MountPoint.path hu)
  · cases h

/-- A data-dir-root or unowned record contributes no event. -/
theorem evList_cons_skip (cfg : Config) (w : World) (v : MountPoint)
    (rest : List MountPoint)
    (h : v.path = cfg.k0sVarsDataDir ∨ ownedMount cfg v.path = false) :
    evList cfg w (v :: rest) = evList cfg w rest := by
  by_cases hd : v.path = cfg.k0sVarsDataDir
  · rw [evList, if_pos hd]
  · rcases h with h | h
    · exact absurd h hd
    · rw [evList, if_neg hd, if_neg (by simp [h])]

/-- An owned record either aborts the loop — its trace is exactly its own
unmount and lazy-unmount call — or contributes its unmount call (plus
possibly its lazy-unmount call) followed by the trace of the rest. -/
theorem evList_cons_owned (cfg : Config) (w : World) (v : MountPoint)
    (rest : List MountPoint) (hd : v.path ≠ cfg.k0sVarsDataDir)
    (how : ownedMount cfg v.path = true) :
    evList cfg w (v :: rest) =
        [Event.unmount v.path, Event.unmountLazy v.path] ∨
    ∃ mid, (mid = [] ∨ mid = [Event.unmountLazy v.path]) ∧
      evList cfg w (v :: rest) =
        Event.unmount v.path :: (mid ++ evList cfg w rest) := by
  by_cases hok : w.unmountOk v.path = true
  · right
    refine ⟨[], Or.inl rfl, ?_⟩
    rw [evList, if_neg hd, if_pos how, if_pos hok]
    rfl
  · by_cases hlz : w.lazyUnmountOk v.path = true
    · right
      refine ⟨[Event.unmountLazy v.path], Or.inr rfl, ?_⟩
      rw [evList, if_neg hd, if_pos how, if_neg hok, if_pos hlz]
      rfl
    · left
      rw [evList, if_neg hd, if_pos how, if_neg hok, if_neg hlz]

/-- Ordering core: in the trace of `pre ++ vj :: mid2 ++ vi :: post`, as
long as `vj` is owned and `vi`'s path occurs neither in `pre` nor as
`vj`'s path, any unmount event for `vi.path` is preceded by the unmount
event for `vj.path`. -/
theorem evList_order (cfg : Config) (w : World) :
    ∀ (pre : List MountPoint) (vj : MountPoint) (mid2 : List MountPoint)
      (vi : MountPoint) (post : List MountPoint),
      vj.path ≠ cfg.k0sVarsDataDir → ownedMount cfg vj.path = true →
      vi.path ∉ pre.map MountPoint.path → vi.path ≠ vj.path →
      Event.unmount vi.path ∈
        evList cfg w (pre ++ (vj :: (mid2 ++ (vi :: post)))) →
      List.Sublist [Event.unmount vj.path, Event.unmount vi.path]
        (evList cfg w (pre ++ (vj :: (mid2 ++ (vi :: post)))))
  | [], vj, mid2, vi, post => by
    intro hdj hoj _ hne hmem
    rw [List.nil_append] at hmem ⊢
    rcases evList_cons_owned cfg w vj (mid2 ++ vi :: post) hdj hoj with
      habort | ⟨mid, hmid, heq⟩
    · rw [habort] at hmem ⊢
      exfalso
      rcases List.mem_cons.mp hmem with h | h
      · simp only [Event.unmount.injEq] at h
        exact hne h
      · have h2 := List.mem_singleton.mp h
        cases h2
    · rw [heq] at hmem ⊢
      rcases List.mem_cons.mp hmem with h | h
      · simp only [Event.unmount.injEq] at h
        exact absurd h hne
      · rcases List.mem_append.mp h with h2 | h2
        · exfalso
          rcases hmid with rfl | rfl
          · cases h2
          · have h3 := List.mem_singleton.mp h2
            cases h3
        · exact List.Sublist.cons₂ _
            (List.singleton_sublist.mpr (List.mem_append_right mid h2))
  | v :: pre, vj, mid2, vi, post => by
    intro hdj hoj hnin hne hmem
    rw [List.map_cons] at hnin
    have hnev : vi.path ≠ v.path := fun h => hnin (h ▸ List.mem_cons_self _ _)
    have hnin2 : vi.path ∉ pre.map MountPoint.path :=
      fun h => hnin (List.mem_cons_of_mem _ h)
    rw [List.cons_append] at hmem ⊢
    by_cases hskip : v.path = cfg.k0sVarsDataDir ∨ ownedMount cfg v.path = false
    · rw [evList_cons_skip cfg w v _ hskip] at hmem ⊢
      exact evList_order cfg w pre vj mid2 vi post hdj hoj hnin2 hne hmem
    · push_neg at hskip
      obtain ⟨hdv, hov⟩ := hskip
      have hov2 : ownedMount cfg v.path = true := by
        rcases h : ownedMount cfg v.path with _ | _
        · exact absurd h hov
        · rfl
      rcases evList_cons_owned cfg w v (pre ++ (vj :: (mid2 ++ (vi :: post))))
        hdv hov2 with habort | ⟨mid, hmid, heq⟩
      · rw [habort] at hmem ⊢
        exfalso
        rcases List.mem_cons.mp hmem with h | h
        · simp only [Event.unmount.injEq] at h
          exact hnev h
        · have h2 := List.mem_singleton.mp h
          cases h2
      · rw [heq] at hmem ⊢
        rcases List.mem_cons.mp hmem with h | h
        · simp only [Event.unmount.injEq] at h
          exact absurd h hnev
        · rcases List.mem_append.mp h with h2 | h2
          · exfalso
            rcases hmid with rfl | rfl
            · cases h2
            · have h3 := List.mem_singleton.mp h2
              cases h3
          · have IH := evList_order cfg w pre vj mid2 vi post hdj hoj hnin2
              hne h2
            exact List.Sublist.cons _
              (IH.trans (List.sublist_append_right mid _))

/-! ### The claims -/

/-- C1: for every enumerated mount record classified as owned (not the
data-dir root, and under the kubelet subdirectory or the data directory),
if the normal unmount fails and the fallback lazy unmount also fails,
`Run` returns the fatal `failed unmount` error naming the path of such an
owned doubly-failing record, and no `RemoveAll` deletion call occurs in
the trace before returning. -/
theorem run_bothFail_aborts_without_deletion (cfg : Config) (w : World)
    (mounts : List MountPoint) (hls : w.listResult = .ok mounts)
    (v : MountPoint) (hv : v ∈ mounts) (hd : v.path ≠ cfg.k0sVarsDataDir)
    (how : ownedMount cfg v.path = true)
    (hok : w.unmountOk v.path = false) (hlz : w.lazyUnmountOk v.path = false) :
    (∃ u ∈ mounts, u.path ≠ cfg.k0sVarsDataDir ∧ ownedMount cfg u.path = true ∧
      w.unmountOk u.path = false ∧ w.lazyUnmountOk u.path = false ∧
      (Run cfg w).1 = some (.simple ("failed unmount " ++ u.path))) ∧
    ∀ p, Event.removeAll p ∉ (Run cfg w).2 := by
  have hex : ∃ x ∈ mounts.reverse, x.path ≠ cfg.k0sVarsDataDir ∧
      ownedMount cfg x.path = true ∧ w.unmountOk x.path = false ∧
      w.lazyUnmountOk x.path = false :=
    ⟨v, List.mem_reverse.mpr hv, hd, how, hok, hlz⟩
  obtain ⟨u, hu, h1, h2, h3, h4, h5⟩ :=
    runMounts_bothFail cfg w mounts.reverse false hex
  have hrun := Run_err cfg w mounts _ hls h5
  constructor
  · exact ⟨u, List.mem_reverse.mp hu, h1, h2, h3, h4, by rw [hrun]⟩
  · intro p hp
    rw [hrun] at hp
    obtain ⟨x, _, _, _, hshape⟩ :=
      runMounts_mem_events cfg w mounts.reverse false _ hp
    rcases hshape with h | h <;> cases h

/-- Witness for C1: in the concrete scenario `cfgA`/`w1` the step aborts
naming `/data/kubelet` and performs no deletion. -/
theorem run_bothFail_aborts_without_deletion_witness :
    (∃ u ∈ [(⟨"/data/kubelet"⟩ : MountPoint)],
      u.path ≠ cfgA.k0sVarsDataDir ∧ ownedMount cfgA u.path = true ∧
      w1.unmountOk u.path = false ∧ w1.lazyUnmountOk u.path = false ∧
      (Run cfgA w1).1 = some (.simple ("failed unmount " ++ u.path))) ∧
    ∀ p, Event.removeAll p ∉ (Run cfgA w1).2 :=
  run_bothFail_aborts_without_deletion cfgA w1 [⟨"/data/kubelet"⟩] rfl
    ⟨"/data/kubelet"⟩ (List.mem_singleton.mpr rfl) (by decide) (by decide)
    rfl rfl

/-- C2: when the unmount traversal finished with flag `m` and deletion of
the data dir fails with error `err`, the failure is tolerated — `Run`
goes on to delete the run dir — exactly when `m` is true and `errors.As`
finds an `unlinkat` path error whose path is exactly the data dir; with
`m` false, or with any other error shape, `Run` fails with the
corresponding fatal wrap of `err`. -/
theorem run_dataDir_erase_tolerance (cfg : Config) (w : World)
    (mounts : List MountPoint) (m : Bool) (evs : List Event) (err : GoError)
    (hls : w.listResult = .ok mounts)
    (hrm : runMounts cfg w mounts.reverse false = (.ok m, evs))
    (hda : w.removeAllResult cfg.dataDir = some err) :
    (((Run cfg w).2 =
        evs ++ [Event.removeAll cfg.dataDir, Event.removeAll cfg.runDir]) ↔
      (m = true ∧ asPathError err = some ("unlinkat", cfg.dataDir))) ∧
    (m = false →
      Run cfg w = (some (.errorf "failed to delete k0s generated data-dir" err),
        evs ++ [Event.removeAll cfg.dataDir])) ∧
    (m = true → asPathError err ≠ some ("unlinkat", cfg.dataDir) →
      Run cfg w =
        (some (.errorf "failed to delete contents of mounted data-dir" err),
          evs ++ [Event.removeAll cfg.dataDir])) ∧
    (m = true → asPathError err = some ("unlinkat", cfg.dataDir) →
      (Run cfg w).1 = (eraseRunDir cfg w).1) := by
  have h1 : (runMounts cfg w mounts.reverse false).1 = .ok m := by rw [hrm]
  have h2 : (runMounts cfg w mounts.reverse false).2 = evs := by rw [hrm]
  have hrun := Run_ok cfg w mounts m hls h1
  rw [h2] at hrun
  by_cases hm : m = true
  · by_cases hu : asPathError err = some ("unlinkat", cfg.dataDir)
    · have hul : errorIsUnlinkat (some err) cfg.dataDir = true :=
        (errorIsUnlinkat_iff err cfg.dataDir).mpr hu
      have hed := eraseDirs_tolerated cfg w m
        (Or.inr ⟨hm, by rw [hda]; exact hul⟩)
      refine ⟨iff_of_true ?_ ⟨hm, hu⟩, ?_, ?_, ?_⟩
      · rw [hrun, hed, eraseRunDir_events]
      · intro hmf
        rw [hm] at hmf
        cases hmf
      · intro _ hne
        exact absurd hu hne
      · intro _ _
        rw [hrun, hed]
    · have hul : errorIsUnlinkat (some err) cfg.dataDir = false := by
        rcases h : errorIsUnlinkat (some err) cfg.dataDir with _ | _
        · rfl
        · exact absurd ((errorIsUnlinkat_iff err cfg.dataDir).mp h) hu
      have hfat := eraseDirs_fatal_mounted cfg w m err hda hm hul
      refine ⟨iff_of_false ?_ (fun hx => hu hx.2), ?_, ?_, ?_⟩
      · intro htr
        rw [hrun, hfat] at htr
        have := List.append_cancel_left htr
        simp at this
      · intro hmf
        rw [hm] at hmf
        cases hmf
      · intro _ _
        rw [hrun, hfat]
      · intro _ hu2
        exact absurd hu2 hu
  · have hmf : m = false := by
      rcases m with _ | _
      · rfl
      · exact absurd rfl hm
    have hfat := eraseDirs_fatal_unmounted cfg w m err hda hmf
    refine ⟨iff_of_false ?_ (fun hx => hm hx.1), ?_, ?_, ?_⟩
    · intro htr
      rw [hrun, hfat] at htr
      have := List.append_cancel_left htr
      simp at this
    · intro _
      rw [hrun, hfat]
    · intro hm2 _
      exact absurd hm2 hm
    · intro hm2 _
      exact absurd hm2 hm

/-- Witness for C2: in the scenario `cfgA`/`w2` the flag is false while
the data-dir deletion fails, so `Run` fails with the fatal wrap. -/
theorem run_dataDir_erase_tolerance_witness :
    Run cfgA w2 =
      (some (.errorf "failed to delete k0s generated data-dir" errU),
        [] ++ [Event.removeAll cfgA.dataDir]) :=
  (run_dataDir_erase_tolerance cfgA w2 [] false [] errU rfl rfl rfl).2.1 rfl

/-- C3: unmount attempts happen in exact reverse enumeration order: if
owned record `vi` precedes owned record `vj` in the enumerated mount list
(all mount paths distinct), then whenever `vi`'s unmount is attempted at
all, `vj`'s unmount appears in the trace strictly before it. -/
theorem run_unmount_reverse_order (cfg : Config) (w : World)
    (l1 l2 l3 : List MountPoint) (vi vj : MountPoint)
    (hls : w.listResult = .ok (l1 ++ (vi :: (l2 ++ (vj :: l3)))))
    (hnd : ((l1 ++ (vi :: (l2 ++ (vj :: l3)))).map MountPoint.path).Nodup)
    (hdi : vi.path ≠ cfg.k0sVarsDataDir) (hoi : ownedMount cfg vi.path = true)
    (hdj : vj.path ≠ cfg.k0sVarsDataDir) (hoj : ownedMount cfg vj.path = true)
    (hmem : Event.unmount vi.path ∈ (Run cfg w).2) :
    List.Sublist [Event.unmount vj.path, Event.unmount vi.path]
      (Run cfg w).2 := by
  have hmap : ((l1 ++ (vi :: (l2 ++ (vj :: l3)))).map MountPoint.path) =
      l1.map MountPoint.path ++ (vi.path ::
        (l2.map MountPoint.path ++ (vj.path :: l3.map MountPoint.path))) := by
    simp
  rw [hmap] at hnd
  have hnd2 := (List.nodup_append.mp hnd).2.1
  have hvi_not := (List.nodup_cons.mp hnd2).1
  have hne : vi.path ≠ vj.path := by
    intro h
    exact hvi_not (List.mem_append_right _ (h ▸ List.mem_cons_self _ _))
  have hvi3 : vi.path ∉ l3.map MountPoint.path := by
    intro h
    exact hvi_not (List.mem_append_right _ (List.mem_cons_of_mem _ h))
  have hpre : vi.path ∉ l3.reverse.map MountPoint.path := by
    rw [List.map_reverse]
    intro h
    exact hvi3 (List.mem_reverse.mp h)
  have hrev : (l1 ++ (vi :: (l2 ++ (vj :: l3)))).reverse =
      l3.reverse ++ (vj :: (l2.reverse ++ (vi :: l1.reverse))) := by
    simp
  rcases hr1 : (runMounts cfg w (l1 ++ (vi :: (l2 ++ (vj :: l3)))).reverse
      false).1 with e | m
  · have hrun := Run_err cfg w _ e hls hr1
    rw [hrun] at hmem ⊢
    rw [runMounts_events_eq cfg w ((l1 ++ (vi :: (l2 ++ (vj :: l3)))).reverse)
      false, hrev] at hmem ⊢
    exact evList_order cfg w l3.reverse vj l2.reverse vi l1.reverse
      hdj hoj hpre hne hmem
  · have hrun := Run_ok cfg w _ m hls hr1
    rw [hrun] at hmem ⊢
    rcases List.mem_append.mp hmem with hmem2 | hmem2
    · rw [runMounts_events_eq cfg w ((l1 ++ (vi :: (l2 ++ (vj :: l3)))).reverse)
        false, hrev] at hmem2
      have hsub := evList_order cfg w l3.reverse vj l2.reverse vi l1.reverse
        hdj hoj hpre hne hmem2
      refine List.Sublist.trans ?_ (List.sublist_append_left _ _)
      rw [runMounts_events_eq cfg w ((l1 ++ (vi :: (l2 ++ (vj :: l3)))).reverse)
        false, hrev]
      exact hsub
    · obtain ⟨p, hp⟩ := eraseDirs_events cfg w m _ hmem2
      cases hp

/-- Witness for C3: the spec's nested example — `/data/kubelet/pods/x` is
unmounted before `/data/kubelet`. -/
theorem run_unmount_reverse_order_witness :
    List.Sublist
      [Event.unmount "/data/kubelet/pods/x", Event.unmount "/data/kubelet"]
      (Run cfgA w3).2 :=
  run_unmount_reverse_order cfgA w3 [⟨"/data"⟩] [] []
    ⟨"/data/kubelet"⟩ ⟨"/data/kubelet/pods/x"⟩ rfl (by decide) (by decide)
    (by decide) (by decide) (by decide) (by decide)

/-- C4: the record whose path equals the data directory is never the
subject of an unmount or lazy-unmount call — it only sets the
`dataDirMounted` flag — and when the traversal completes, the flag is
true exactly when some enumerated record's path equals the data
directory. -/
theorem run_dataDirRoot_flag_only (cfg : Config) (w : World)
    (mounts : List MountPoint) (m : Bool)
    (hls : w.listResult = .ok mounts)
    (hrm : (runMounts cfg w mounts.reverse false).1 = .ok m) :
    (Event.unmount cfg.k0sVarsDataDir ∉ (Run cfg w).2 ∧
      Event.unmountLazy cfg.k0sVarsDataDir ∉ (Run cfg w).2) ∧
    (m = true ↔ ∃ v ∈ mounts, v.path = cfg.k0sVarsDataDir) := by
  have hrun := Run_ok cfg w mounts m hls hrm
  refine ⟨⟨?_, ?_⟩, ?_⟩
  · intro hp
    rw [hrun] at hp
    rcases List.mem_append.mp hp with hp | hp
    · obtain ⟨u, _, h1, _, hshape⟩ :=
        runMounts_mem_events cfg w mounts.reverse false _ hp
      rcases hshape with h | h
      · simp only [Event.unmount.injEq] at h
        exact h1 h.symm
      · cases h
    · obtain ⟨p, hpp⟩ := eraseDirs_events cfg w m _ hp
      cases hpp
  · intro hp
    rw [hrun] at hp
    rcases List.mem_append.mp hp with hp | hp
    · obtain ⟨u, _, h1, _, hshape⟩ :=
        runMounts_mem_events cfg w mounts.reverse false _ hp
      rcases hshape with h | h
      · cases h
      · simp only [Event.unmountLazy.injEq] at h
        exact h1 h.symm
    · obtain ⟨p, hpp⟩ := eraseDirs_events cfg w m _ hp
      cases hpp
  · have := runMounts_flag cfg w mounts.reverse false m hrm
    rw [this]
    simp [List.mem_reverse]

/-- Witness for C4: with a `/data` root mount and an unrelated mount, no
unmount of `/data` happens and the flag comes back true. -/
theorem run_dataDirRoot_flag_only_witness :
    (Event.unmount cfgA.k0sVarsDataDir ∉ (Run cfgA w4).2 ∧
      Event.unmountLazy cfgA.k0sVarsDataDir ∉ (Run cfgA w4).2) ∧
    (true = true ↔
      ∃ v ∈ [(⟨"/data"⟩ : MountPoint), ⟨"/somewhere"⟩],
        v.path = cfgA.k0sVarsDataDir) :=
  run_dataDirRoot_flag_only cfgA w4 [⟨"/data"⟩, ⟨"/somewhere"⟩] true rfl rfl

/-- Counterexample to C5 as frozen: `"..b"` is a legitimate child
component of `"/a"`, yet `isUnderPath` classifies `"/a/..b"` as not under
`"/a"`, because the computed relative path `"..b"` begins with the
two-character string `".."` and the code tests that with a string-prefix
check rather than a component check. -/
theorem isUnderPath_child_dotdot_false :
    isUnderPath ("/a" ++ "/" ++ "..b") "/a" = false := by decide

/-- C5 (amended): `isUnderPath(B, B)` holds for every string `B`; and for
every base `B` that is a cleaned absolute path other than the root —
written `/c1/…/cn` with nonempty, slash-free components different from
`"."` and `".."` — `isUnderPath(B ++ "/" ++ x, B)` holds for every
nonempty slash-free child component `x` that does not begin with `".."`,
`isUnderPath(B ++ "2", B)` is false, and `isUnderPath(parentOf B, B)` is
false, where `parentOf` is `filepath.Dir`. -/
theorem isUnderPath_containment (comps : List (List Char)) (h1 : comps ≠ [])
    (hval : ∀ c ∈ comps, ValidComp c) (x : List Char) (hx1 : x ≠ [])
    (hx2 : '/' ∉ x) (hx3 : ¬ List.isPrefixOf ['.', '.'] x = true) :
    (∀ s : String, isUnderPath s s = true) ∧
    isUnderPath (absPath comps ++ "/" ++ List.asString x) (absPath comps) =
      true ∧
    isUnderPath (absPath comps ++ "2") (absPath comps) = false ∧
    isUnderPath (dir (absPath comps)) (absPath comps) = false :=
  ⟨isUnderPath_self, isUnderPath_child comps h1 hval x hx1 hx2 hx3,
    isUnderPath_sibling comps h1 hval, isUnderPath_parent comps h1 hval⟩

/-- Witness for C5 at the concrete base `"/a"` and component `"b"`. -/
theorem isUnderPath_containment_witness :
    (∀ s : String, isUnderPath s s = true) ∧
    isUnderPath (absPath [['a']] ++ "/" ++ List.asString ['b'])
      (absPath [['a']]) = true ∧
    isUnderPath (absPath [['a']] ++ "2") (absPath [['a']]) = false ∧
    isUnderPath (dir (absPath [['a']])) (absPath [['a']]) = false :=
  isUnderPath_containment [['a']] (by decide) (by decide) ['b'] (by decide)
    (by decide) (by decide)

/-- C6: for an owned record, a successful normal unmount emits no lazy
call and continues; a lazy unmount happens only after the normal unmount
failed, and when the lazy unmount succeeds the loop continues to the
remaining records (the record's normal unmount is called exactly once);
moreover every lazy-unmount event in any trace is for a path whose normal
unmount fails. -/
theorem run_lazy_fallback (cfg : Config) (w : World) (v : MountPoint)
    (rest : List MountPoint) (m : Bool)
    (hd : v.path ≠ cfg.k0sVarsDataDir) (how : ownedMount cfg v.path = true) :
    (w.unmountOk v.path = true →
      runMounts cfg w (v :: rest) m =
        ((runMounts cfg w rest m).1,
          .unmount v.path :: (runMounts cfg w rest m).2)) ∧
    (w.unmountOk v.path = false → w.lazyUnmountOk v.path = true →
      runMounts cfg w (v :: rest) m =
        ((runMounts cfg w rest m).1,
          .unmount v.path :: .unmountLazy v.path ::
            (runMounts cfg w rest m).2)) ∧
    (∀ l m2 p, Event.unmountLazy p ∈ (runMounts cfg w l m2).2 →
      w.unmountOk p = false) := by
  refine ⟨?_, ?_, runMounts_lazy_mem cfg w⟩
  · intro hok
    rw [runMounts, if_neg hd, if_pos how, if_pos hok]
  · intro hok hlz
    rw [runMounts, if_neg hd, if_pos how, if_neg (by simp [hok]), if_pos hlz]

/-- Witness for C6 at a concrete owned record. -/
theorem run_lazy_fallback_witness :
    (w6.unmountOk "/data/kubelet" = true →
      runMounts cfgA w6 [⟨"/data/kubelet"⟩] false =
        ((runMounts cfgA w6 [] false).1,
          .unmount "/data/kubelet" :: (runMounts cfgA w6 [] false).2)) ∧
    (w6.unmountOk "/data/kubelet" = false →
      w6.lazyUnmountOk "/data/kubelet" = true →
      runMounts cfgA w6 [⟨"/data/kubelet"⟩] false =
        ((runMounts cfgA w6 [] false).1,
          .unmount "/data/kubelet" :: .unmountLazy "/data/kubelet" ::
            (runMounts cfgA w6 [] false).2)) ∧
    (∀ l m2 p, Event.unmountLazy p ∈ (runMounts cfgA w6 l m2).2 →
      w6.unmountOk p = false) :=
  run_lazy_fallback cfgA w6 ⟨"/data/kubelet"⟩ [] false (by decide) (by decide)

/-- C7: whenever the data-dir deletion step completes — it returned no
error, or the flag was set and the failure was the tolerated unlinkat
shape — `Run` performs the `RemoveAll` of the run dir, succeeds exactly
when that deletion succeeds, and any run-dir deletion failure is
unconditionally fatal with the corresponding wrapped error. -/
theorem run_runDir_failure_unconditional (cfg : Config) (w : World)
    (mounts : List MountPoint) (m : Bool) (evs : List Event)
    (hls : w.listResult = .ok mounts)
    (hrm : runMounts cfg w mounts.reverse false = (.ok m, evs))
    (htol : w.removeAllResult cfg.dataDir = none ∨
      (m = true ∧
        errorIsUnlinkat (w.removeAllResult cfg.dataDir) cfg.dataDir = true)) :
    Event.removeAll cfg.runDir ∈ (Run cfg w).2 ∧
    ((Run cfg w).1 = none ↔ w.removeAllResult cfg.runDir = none) ∧
    (∀ e2, w.removeAllResult cfg.runDir = some e2 →
      (Run cfg w).1 = some (.errorf ("failed to delete " ++ cfg.runDir) e2)) := by
  have h1 : (runMounts cfg w mounts.reverse false).1 = .ok m := by rw [hrm]
  have h2 : (runMounts cfg w mounts.reverse false).2 = evs := by rw [hrm]
  have hrun := Run_ok cfg w mounts m hls h1
  rw [h2] at hrun
  have hed := eraseDirs_tolerated cfg w m htol
  refine ⟨?_, ?_, ?_⟩
  · rw [hrun, hed, eraseRunDir_events]
    simp
  · rw [hrun, hed]
    rcases hr : w.removeAllResult cfg.runDir with _ | e2
    · rw [eraseRunDir_none cfg w hr]
    · rw [eraseRunDir_some cfg w e2 hr]
      simp
  · intro e2 hr
    rw [hrun, hed, eraseRunDir_some cfg w e2 hr]

/-- Witness for C7: deleting the run dir fails in `w7`, so `Run` fails
with the wrapped error even though the data dir deletion succeeded. -/
theorem run_runDir_failure_unconditional_witness :
    Event.removeAll cfgA.runDir ∈ (Run cfgA w7).2 ∧
    ((Run cfgA w7).1 = none ↔ w7.removeAllResult cfgA.runDir = none) ∧
    (∀ e2, w7.removeAllResult cfgA.runDir = some e2 →
      (Run cfgA w7).1 =
        some (.errorf ("failed to delete " ++ cfgA.runDir) e2)) :=
  run_runDir_failure_unconditional cfgA w7 [] false [] rfl rfl (Or.inl rfl)

/-- C8: a second `Run` in a state where the first fully succeeded — no
enumerated mount is the data-dir root or owned, and both deletions are
no-ops — returns success, attempts no unmount, and its only effects are
the two no-op `RemoveAll` calls. -/
theorem run_idempotent_after_success (cfg : Config) (w : World)
    (mounts : List MountPoint) (hls : w.listResult = .ok mounts)
    (hall : ∀ v ∈ mounts,
      v.path ≠ cfg.k0sVarsDataDir ∧ ownedMount cfg v.path = false)
    (hd : w.removeAllResult cfg.dataDir = none)
    (hr : w.removeAllResult cfg.runDir = none) :
    Run cfg w =
      (none, [Event.removeAll cfg.dataDir, Event.removeAll cfg.runDir]) := by
  have hskip := runMounts_skip_all cfg w mounts.reverse false
    (fun v hv => hall v (List.mem_reverse.mp hv))
  have h1 : (runMounts cfg w mounts.reverse false).1 = .ok false := by rw [hskip]
  have h2 : (runMounts cfg w mounts.reverse false).2 = [] := by rw [hskip]
  have hrun := Run_ok cfg w mounts false hls h1
  rw [h2] at hrun
  rw [hrun, eraseDirs_tolerated cfg w false (Or.inl hd),
    eraseRunDir_none cfg w hr]
  rfl

/-- Witness for C8 in the concrete scenario `cfgA`/`w8`. -/
theorem run_idempotent_after_success_witness :
    Run cfgA w8 =
      (none, [Event.removeAll cfgA.dataDir, Event.removeAll cfgA.runDir]) :=
  run_idempotent_after_success cfgA w8 [⟨"/elsewhere"⟩] rfl (by decide)
    rfl rfl

/-- C9: the kubelet subdirectory used by the ownership test is not
independent configuration: the loop's test equals the spec classifier
instantiated with exactly `Join(dataDir, "kubelet")`, and the
classification depends only on the two data-directory fields of the
configuration (in particular not on `runDir`). -/
theorem ownedMount_kubelet_derived (cfg : Config) (p : String) :
    ownedMount cfg p =
      specOwned (filepathJoin cfg.dataDir "kubelet") cfg.k0sVarsDataDir p ∧
    ∀ cfg2 : Config, cfg.dataDir = cfg2.dataDir →
      cfg.k0sVarsDataDir = cfg2.k0sVarsDataDir →
      ownedMount cfg p = ownedMount cfg2 p := by
  refine ⟨rfl, ?_⟩
  intro cfg2 h1 h2
  unfold ownedMount
  rw [h1, h2]

/-- Witness for C9: concrete instance, with a second configuration that
differs only in its run directory. -/
theorem ownedMount_kubelet_derived_witness :
    ownedMount cfgA "/data/kubelet" =
      specOwned (filepathJoin cfgA.dataDir "kubelet") cfgA.k0sVarsDataDir
        "/data/kubelet" ∧
    ownedMount cfgA "/data/kubelet" =
      ownedMount ⟨"/data", "/other-run", "/data"⟩ "/data/kubelet" :=
  ⟨(ownedMount_kubelet_derived cfgA "/data/kubelet").1,
    (ownedMount_kubelet_derived cfgA "/data/kubelet").2
      ⟨"/data", "/other-run", "/data"⟩ rfl rfl⟩

/-- C10: the tolerated-error classifier rejects a nil error and any error
whose unwrap chain contains no path error; on the path error that
`errors.As` finds it succeeds exactly when the operation is `"unlinkat"`
and the path equals the directory; and it is invariant under one level of
`fmt.Errorf` wrapping. -/
theorem errorIsUnlinkat_classifier (d : String) :
    errorIsUnlinkat none d = false ∧
    (∀ e, asPathError e = none → errorIsUnlinkat (some e) d = false) ∧
    (∀ e op p, asPathError e = some (op, p) →
      (errorIsUnlinkat (some e) d = true ↔ (op = "unlinkat" ∧ p = d))) ∧
    (∀ msg e, errorIsUnlinkat (some (.errorf msg e)) d =
      errorIsUnlinkat (some e) d) := by
  refine ⟨rfl, ?_, ?_, ?_⟩
  · intro e he
    show (match asPathError e with
          | none => false
          | some pe => pe.2 == d && pe.1 == "unlinkat") = false
    rw [he]
  · intro e op p he
    rw [errorIsUnlinkat_iff, he]
    simp only [Option.some.injEq, Prod.mk.injEq]
  · intro msg e
    rfl

/-- Witness for C10 at concrete errors. -/
theorem errorIsUnlinkat_classifier_witness :
    errorIsUnlinkat none "/data" = false ∧
    errorIsUnlinkat (some (.simple "broken")) "/data" = false ∧
    (errorIsUnlinkat (some errU) "/data" = true ↔
      ("unlinkat" = "unlinkat" ∧ "/data" = "/data")) ∧
    errorIsUnlinkat (some (.errorf "wrapped" errU)) "/data" =
      errorIsUnlinkat (some errU) "/data" :=
  ⟨(errorIsUnlinkat_classifier "/data").1,
    (errorIsUnlinkat_classifier "/data").2.1 (.simple "broken") rfl,
    (errorIsUnlinkat_classifier "/data").2.2.1 errU "unlinkat" "/data" rfl,
    (errorIsUnlinkat_classifier "/data").2.2.2 "wrapped" errU⟩

end Cleanup
